import Mathlib

/-!
Shallow embedding of `curry.py` (pycurry), a decorator that converts a
fixed-arity Python callable into a curried one.

The embedding mirrors the source functions:
  * `_set_argument`     (curry.py lines 112-117)
  * `_first_free_arg`   (curry.py lines 119-127)
  * `_specialized_curry`(curry.py lines 88-106)
  * `_curry_wrapper` / `_curried_fun` (curry.py lines 129-145), embedded as
    `BindingNode` / `callNode` (state passed explicitly; creating the next
    closure becomes creating the next `BindingNode` record).

Python `TypeError`s raised by the module (and by the host runtime when the
wrapped callable is finally invoked with `fun(**current_args)`) are modelled
by the `PyError` type, and raising becomes returning `Except.error`.

Values bound to parameters live in an arbitrary type `V`; the wrapped
callable's result lives in an arbitrary type `R`.  A Python callable is
modelled by `Callable`: its `__name__`, the `inspect.getfullargspec` data
actually consulted by the source (`args`, `defaults`, `varargs`/`varkw`
presence), whether it is a bound method, and its body.  `defaults` is an
`Option (List V)` because `inspect.getfullargspec` yields `None` (not an
empty tuple) when the callable declares no default values.

A Python dict keyed by parameter names is modelled as an association list
(`Args V`) in insertion order with distinct keys; `setArg` mirrors dict
assignment: it replaces the value of an existing key in place, otherwise
appends the new key at the end.
-/

namespace Curry

/-- Exceptions raised by `curry.py` or by the host runtime during the final
`fun(**current_args)` call. -/
inductive PyError where
  /-- "@curry used with bad parameters or none at all." (line 86) -/
  | badDecoratorFlags
  /-- "First argument must be a function or a bound method." (line 90) -/
  | notCallable
  /-- "Currying variadic function name() is ambiguous." (line 94) -/
  | variadic (fname : String)
  /-- "name() takes total positional arguments but more were given" (line 127) -/
  | arityExceeded (fname : String) (total : Nat)
  /-- "name() got an unexpected keyword argument 'arg'" (line 114) -/
  | unknownParameter (fname : String) (arg : String)
  /-- "Curried function name() does not allow overriding given parameter 'arg'." (line 116) -/
  | overrideNotAllowed (fname : String) (arg : String)
  /-- host runtime: unexpected keyword argument in `fun(**current_args)` -/
  | unexpectedKeyword (fname : String) (arg : String)
  /-- host runtime: `fun(**current_args)` on a bound method with the receiver
  name among the keywords ("got multiple values for argument") -/
  | multipleValues (fname : String) (arg : String)
  /-- host runtime: `fun(**current_args)` with a required parameter unbound
  ("name() missing 1 required positional argument: 'arg'") -/
  | missingArgument (fname : String) (arg : String)
  /-- host runtime: `reversed(None)` in line 101 when `argspec.defaults` is
  `None` ("argument to reversed() must be a sequence") -/
  | reversedOfNone
  /-- host runtime: a non-callable result (e.g. the tuple returned by a
  forced call) was called again -/
  | resultNotCallable
  deriving DecidableEq, Repr

/-- A Python callable as seen by `curry.py`: its name, the parts of
`inspect.getfullargspec(fun)` the source consults, whether it is a bound
method (`inspect.ismethod`), and its body.  The body receives the value
bound to each parameter name (the receiver of a bound method is part of the
closure, not of the environment). -/
structure Callable (V R : Type) where
  name : String
  /-- `argspec.args`: declared parameter names in order (for a bound method
  this still starts with the receiver name, e.g. `self`). -/
  args : List String
  /-- `argspec.defaults`: values for the trailing parameters, or `none` when
  the callable declares no defaults (Python yields `None` then). -/
  defaults : Option (List V)
  /-- `inspect.ismethod fun` -/
  isMethod : Bool
  /-- `argspec.varargs is not None` -/
  varargs : Bool
  /-- `argspec.varkw is not None` -/
  varkw : Bool
  /-- the function body, fed by parameter name -/
  body : (String → Option V) → R

/-- `current_args` / `use_args`: a Python dict from parameter name to value,
as an association list in insertion order. -/
abbrev Args (V : Type) := List (String × V)

/-- `arg in current_args` (dict key membership). -/
def memArg (ca : Args V) (a : String) : Bool :=
  ca.any (fun p => p.1 == a)

/-- `current_args[arg]` as an optional lookup (first matching key). -/
def lookupArg (ca : Args V) (a : String) : Option V :=
  (ca.find? (fun p => p.1 == a)).map Prod.snd

/-- `current_args[new_arg] = new_val` (dict assignment): replace the value of
an existing key in place, otherwise append the key at the end. -/
def setArg (ca : Args V) (a : String) (v : V) : Args V :=
  if memArg ca a then ca.map (fun p => if p.1 == a then (a, v) else p)
  else ca ++ [(a, v)]

/-- Lines 120-123: the parameter names positional resolution may target —
all of `argspec.args`, minus the bound object for methods. -/
def validArgs (f : Callable V R) : List String :=
  if f.isMethod then f.args.tail else f.args

/-- `_set_argument` (lines 112-117). -/
def _set_argument (f : Callable V R) (current_args : Args V) (allow_override : Bool)
    (new_arg : String) (new_val : V) : Except PyError (Args V) :=
  if !(f.args.contains new_arg) then
    .error (.unknownParameter f.name new_arg)
  else if memArg current_args new_arg && !allow_override then
    .error (.overrideNotAllowed f.name new_arg)
  else
    .ok (setArg current_args new_arg new_val)

/-- `_first_free_arg` (lines 119-127). -/
def _first_free_arg (f : Callable V R) (current_args : Args V) :
    Except PyError String :=
  match (validArgs f).find? (fun arg => !(memArg current_args arg)) with
  | some arg => .ok arg
  | none => .error (.arityExceeded f.name f.args.length)

/-- The default value attached to parameter `a`, if any: Python attaches
`argspec.defaults` to the trailing parameters. -/
def paramDefault (f : Callable V R) (a : String) : Option V :=
  match f.defaults with
  | none => none
  | some ds => lookupArg (f.args.reverse.zip ds.reverse) a

/-- The environment the body of `f` sees when invoked as
`fun(**current_args)`: the bound value if present, else the declared
default. -/
def callEnv (f : Callable V R) (ca : Args V) : String → Option V :=
  fun a => (lookupArg ca a).orElse (fun _ => paramDefault f a)

/-- The host runtime's semantics of `fun(**current_args)` (lines 137 and
143): reject an unknown keyword, reject re-supplying the receiver of a bound
method, reject a missing required (default-less) parameter, otherwise run the
body. -/
def callFun (f : Callable V R) (ca : Args V) : Except PyError R :=
  match ca.find? (fun p => !(f.args.contains p.1)) with
  | some p => .error (.unexpectedKeyword f.name p.1)
  | none =>
    if f.isMethod && memArg ca (f.args.headD "") then
      .error (.multipleValues f.name (f.args.headD ""))
    else
      match (validArgs f).find?
          (fun a => !(memArg ca a) && (paramDefault f a).isNone) with
      | some a => .error (.missingArgument f.name a)
      | none => .ok (f.body (callEnv f ca))

/-- One `_curried_fun` closure (lines 130-145): the wrapped callable together
with the `use_args` dict and the policy flags captured by `_curry_wrapper`. -/
structure BindingNode (V R : Type) where
  fun_ : Callable V R
  use_args : Args V
  lazy : Bool
  allow_override : Bool

/-- What a call on a `_curried_fun` closure produces when it does not raise:
either the next closure (line 144) or the wrapped callable's result value
(lines 137 and 143). -/
inductive CallResult (V R : Type) where
  | node (n : BindingNode V R)
  | value (r : R)

/-- Lines 138-139: bind each positional value, in order, to the first free
parameter slot at that moment (the `for val in args` loop). -/
def bindPositional (f : Callable V R) (allow_override : Bool) :
    Args V → List V → Except PyError (Args V)
  | ca, [] => .ok ca
  | ca, val :: vals => do
    let arg ← _first_free_arg f ca
    let ca2 ← _set_argument f ca allow_override arg val
    bindPositional f allow_override ca2 vals

/-- Lines 140-141: bind each keyword value, in the order given at the call
site (the `for arg in kwargs` loop; Python dicts preserve kwargs insertion
order). -/
def bindKeywords (f : Callable V R) (allow_override : Bool) :
    Args V → List (String × V) → Except PyError (Args V)
  | ca, [] => .ok ca
  | ca, p :: kwargs => do
    let ca2 ← _set_argument f ca allow_override p.1 p.2
    bindKeywords f allow_override ca2 kwargs

/-- Lines 138-141 as one step: all positional values, then all keyword
values. -/
def resolveCall (f : Callable V R) (allow_override : Bool) (ca : Args V)
    (args : List V) (kwargs : List (String × V)) : Except PyError (Args V) := do
  let ca ← bindPositional f allow_override ca args
  bindKeywords f allow_override ca kwargs

/-- `_curried_fun` (lines 131-144).  `current_args = dict.copy(use_args)` is
the identity here because `Args` values are immutable; the copy is what makes
the source's in-place updates local to this call (see `callNodeS` for the
embedding that keeps the dicts in an explicit store). -/
def callNode (n : BindingNode V R) (args : List V) (kwargs : List (String × V)) :
    Except PyError (CallResult V R) :=
  let current_args := n.use_args
  if args.isEmpty && kwargs.isEmpty then
    (callFun n.fun_ current_args).map CallResult.value
  else
    match resolveCall n.fun_ n.allow_override current_args args kwargs with
    | .error e => .error e
    | .ok ca =>
      if !n.lazy && ca.length == n.fun_.args.length then
        (callFun n.fun_ ca).map CallResult.value
      else
        .ok (.node { n with use_args := ca })

/-- What the Specializer receives: either a callable, or anything for which
`inspect.ismethod` and `inspect.isfunction` are both false. -/
inductive PyObject (V R : Type) where
  | callable (f : Callable V R)
  | notFunction

/-- Line 101: `dict(zip(reversed(argspec.args), reversed(argspec.defaults)))`.
When the callable has no defaults, `argspec.defaults` is `None` and
`reversed(None)` raises a `TypeError`. -/
def seedDefaults (f : Callable V R) : Except PyError (Args V) :=
  match f.defaults with
  | none => .error .reversedOfNone
  | some ds => .ok (f.args.reverse.zip ds.reverse)

/-- `_specialized_curry` (lines 88-104): reject non-callables and variadic
callables, seed the initial dict from the defaults when `use_defaults` is
set, and return the root closure. -/
def _specialized_curry (lazy allow_override use_defaults : Bool)
    (obj : PyObject V R) : Except PyError (BindingNode V R) :=
  match obj with
  | .notFunction => .error .notCallable
  | .callable f =>
    if f.varargs || f.varkw then
      .error (.variadic f.name)
    else do
      let initial_args ← if use_defaults then seedDefaults f else pure []
      pure { fun_ := f, use_args := initial_args,
             lazy := lazy, allow_override := allow_override }

/-- A chain of calls `start(c₁...)(c₂...)...`, each call a pair of positional
values and keyword values.  Calling a returned result value again is the host
runtime's "object is not callable" `TypeError`. -/
def callChain (start : CallResult V R) :
    List (List V × List (String × V)) → Except PyError (CallResult V R)
  | [] => .ok start
  | c :: calls =>
    match start with
    | .node n =>
      match callNode n c.1 c.2 with
      | .error e => .error e
      | .ok r => callChain r calls
    | .value _ => .error .resultNotCallable

/-- Python's direct full positional call `f(v₁, ..., vₙ)` for a free function
whose parameter count equals the number of values: parameter `i` receives
value `i`. -/
def directCall (f : Callable V R) (vals : List V) : Except PyError R :=
  callFun f (f.args.zip vals)

/-! ### Store-passing embedding of the dict state (for the frame property)

In the source every `_curried_fun` closure captures one dict (`use_args`),
and a call first takes `dict.copy(use_args)` (line 132) and then mutates only
that fresh copy.  To state that a call never mutates the calling node's own
dict, this second embedding keeps all dicts in an explicit store (a list, new
dicts appended) and lets nodes refer to their dict by index. -/

/-- A `_curried_fun` closure whose captured dict lives at index `idx` of an
explicit store. -/
structure SBindingNode (V R : Type) where
  fun_ : Callable V R
  idx : Nat
  lazy : Bool
  allow_override : Bool

/-- Result of a call in the store-passing embedding. -/
inductive SCallResult (V R : Type) where
  | node (n : SBindingNode V R)
  | value (r : R)

/-- `_curried_fun` with the dict store explicit: the call reads the node's
dict, works on a copy, and on success appends the copy as a new dict; it
never writes to an existing store cell. -/
def callNodeS (store : List (Args V)) (n : SBindingNode V R) (args : List V)
    (kwargs : List (String × V)) :
    List (Args V) × Except PyError (SCallResult V R) :=
  let use_args := store.getD n.idx []
  let current_args := use_args
  if args.isEmpty && kwargs.isEmpty then
    (store, (callFun n.fun_ current_args).map SCallResult.value)
  else
    match resolveCall n.fun_ n.allow_override current_args args kwargs with
    | .error e => (store, .error e)
    | .ok ca =>
      if !n.lazy && ca.length == n.fun_.args.length then
        (store, (callFun n.fun_ ca).map SCallResult.value)
      else
        (store ++ [ca], .ok (.node { n with idx := store.length }))

/-- Observational equivalence of two call results, each read in its own
store: same error, same result value, or nodes over the same callable and
flags whose dicts (looked up in the respective stores) hold the same
bindings.  Node indices are allocation details, not observable bindings. -/
def SResultEquiv (s₁ s₂ : List (Args V))
    (r₁ r₂ : Except PyError (SCallResult V R)) : Prop :=
  match r₁, r₂ with
  | .error e₁, .error e₂ => e₁ = e₂
  | .ok (.value v₁), .ok (.value v₂) => v₁ = v₂
  | .ok (.node n₁), .ok (.node n₂) =>
      n₁.fun_ = n₂.fun_ ∧ n₁.lazy = n₂.lazy ∧
      n₁.allow_override = n₂.allow_override ∧
      s₁.getD n₁.idx [] = s₂.getD n₂.idx []
  | _, _ => False

/-- The wrapper's invariant on a dict: keys are pairwise distinct and every
key is a declared parameter of `f`.  It holds for the seeded or empty
initial dict and is preserved by `_set_argument`. -/
def validKeys (f : Callable V R) (ca : Args V) : Prop :=
  (ca.map Prod.fst).Nodup ∧ ∀ a ∈ ca.map Prod.fst, a ∈ f.args

/-! ### Concrete callables used to exercise the definitions -/

/-- Body of a test function that returns the tuple of its parameters. -/
def tupleBody (names : List String) : (String → Option Nat) → List Nat :=
  fun env => names.map (fun a => (env a).getD 0)

/-- `def f(a, b, c): return (a, b, c)` -/
def exF : Callable Nat (List Nat) :=
  { name := "f", args := ["a", "b", "c"], defaults := none, isMethod := false,
    varargs := false, varkw := false, body := tupleBody ["a", "b", "c"] }

/-- `def fd(a, b, y=6, z=7): return (a, b, y, z)` -/
def exFd : Callable Nat (List Nat) :=
  { name := "fd", args := ["a", "b", "y", "z"], defaults := some [6, 7],
    isMethod := false, varargs := false, varkw := false,
    body := tupleBody ["a", "b", "y", "z"] }

/-- A bound method `m(self, x, y)` (receiver captured, `argspec.args` still
lists `self` first). -/
def exM : Callable Nat (List Nat) :=
  { name := "m", args := ["self", "x", "y"], defaults := none,
    isMethod := true, varargs := false, varkw := false,
    body := tupleBody ["x", "y"] }

/-- `def v(*args): pass` — a variadic function. -/
def exV : Callable Nat (List Nat) :=
  { name := "v", args := [], defaults := none, isMethod := false,
    varargs := true, varkw := false, body := fun _ => [] }

/-- `def g(a, b): return (a, b)` — used for the zero-defaults seeding case. -/
def exG : Callable Nat (List Nat) :=
  { name := "g", args := ["a", "b"], defaults := none, isMethod := false,
    varargs := false, varkw := false, body := tupleBody ["a", "b"] }

/-! ### Helper lemmas: dict membership and first-free search -/

theorem memArg_eq (ca : Args V) (a : String) :
    memArg ca a = (ca.map Prod.fst).contains a := by
  induction ca with
  | nil => rfl
  | cons p ca ih =>
    simp only [memArg, List.any_cons, List.map_cons, List.contains_cons] at ih ⊢
    rw [ih, Bool.beq_comm]

theorem memArg_iff (ca : Args V) (a : String) :
    memArg ca a = true ↔ a ∈ ca.map Prod.fst := by
  rw [memArg_eq]
  simp [List.contains]

theorem find?_congr_mem {p q : String → Bool} :
    ∀ (l : List String), (∀ a ∈ l, p a = q a) → l.find? p = l.find? q
  | [], _ => rfl
  | x :: xs, h => by
    have hx := h x (List.mem_cons_self x xs)
    by_cases hp : p x = true
    · rw [List.find?_cons_of_pos _ hp, List.find?_cons_of_pos _ (hx ▸ hp)]
    · rw [List.find?_cons_of_neg _ (by simpa using hp),
        List.find?_cons_of_neg _ (by rw [← hx]; simpa using hp)]
      exact find?_congr_mem xs (fun a ha => h a (List.mem_cons_of_mem _ ha))

theorem get_not_mem_take {l : List String} (hnd : l.Nodup) {k : Nat}
    (hk : k < l.length) : l.get ⟨k, hk⟩ ∉ l.take k := by
  intro hmem
  have hnd2 : (l.take k ++ l.drop k).Nodup := by
    rw [List.take_append_drop]
    exact hnd
  refine List.disjoint_of_nodup_append hnd2 hmem ?_
  rw [List.drop_eq_getElem_cons hk]
  exact List.mem_cons_self _ _

theorem find?_take_eq_get :
    ∀ (l : List String) (k : Nat) (hk : k < l.length), l.Nodup →
      l.find? (fun a => !((l.take k).contains a)) = some (l.get ⟨k, hk⟩)
  | x :: xs, 0, _, _ => by
    simp only [List.take_zero]
    rw [List.find?_cons_of_pos _ (by simp [List.contains])]
    rfl
  | x :: xs, k + 1, hk, hnd => by
    have hx : x ∉ xs := (List.nodup_cons.mp hnd).1
    have hnd2 : xs.Nodup := (List.nodup_cons.mp hnd).2
    have hk2 : k < xs.length := by simpa using hk
    have hcg : xs.find? (fun a => !((x :: xs.take k).contains a))
        = xs.find? (fun a => !((xs.take k).contains a)) := by
      apply find?_congr_mem
      intro a ha
      have hax : (a == x) = false := by
        apply beq_eq_false_iff_ne.mpr
        intro he
        exact hx (he ▸ ha)
      simp only [List.contains_cons, hax, Bool.false_or]
    simp only [List.take_succ_cons]
    rw [List.find?_cons_of_neg _ (by simp [List.contains_cons]), hcg,
      find?_take_eq_get xs k hk2 hnd2]
    simp

theorem find?_index_spec (p : String → Bool) :
    ∀ (l : List String) (b : String),
      l.find? p = some b ↔
        ∃ i : Nat, l[i]? = some b ∧ p b = true ∧
          ∀ j : Nat, j < i → ∃ c, l[j]? = some c ∧ p c = false
  | [], b => by simp
  | x :: xs, b => by
    by_cases hp : p x = true
    · rw [List.find?_cons_of_pos _ hp]
      constructor
      · intro h
        injection h with h
        subst h
        exact ⟨0, by simp, hp, fun j hj => absurd hj (Nat.not_lt_zero j)⟩
      · rintro ⟨i, hget, hpb, hmin⟩
        cases i with
        | zero =>
          simp only [List.getElem?_cons_zero, Option.some.injEq] at hget
          rw [hget]
        | succ i =>
          obtain ⟨c, hc, hpc⟩ := hmin 0 (Nat.succ_pos i)
          simp only [List.getElem?_cons_zero, Option.some.injEq] at hc
          rw [hc] at hp
          exact absurd hp (by rw [hpc]; simp)
    · rw [List.find?_cons_of_neg _ (by simpa using hp),
        find?_index_spec p xs b]
      constructor
      · rintro ⟨i, hget, hpb, hmin⟩
        refine ⟨i + 1, by simpa using hget, hpb, ?_⟩
        intro j hj
        cases j with
        | zero => exact ⟨x, by simp, by simpa using hp⟩
        | succ j =>
          obtain ⟨c, hc, hpc⟩ := hmin j (Nat.lt_of_succ_lt_succ hj)
          exact ⟨c, by simpa using hc, hpc⟩
      · rintro ⟨i, hget, hpb, hmin⟩
        cases i with
        | zero =>
          simp only [List.getElem?_cons_zero, Option.some.injEq] at hget
          rw [← hget] at hpb
          exact absurd hpb hp
        | succ i =>
          refine ⟨i, by simpa using hget, hpb, ?_⟩
          intro j hj
          obtain ⟨c, hc, hpc⟩ := hmin (j + 1) (Nat.succ_lt_succ hj)
          exact ⟨c, by simpa using hc, hpc⟩

/-! ### Helper lemmas: dict update -/

theorem except_bind_ok {α β : Type} (a : α) (k : α → Except PyError β) :
    (Except.ok a >>= k : Except PyError β) = k a := rfl

theorem except_bind_error {α β : Type} (e : PyError) (k : α → Except PyError β) :
    (Except.error e >>= k : Except PyError β) = Except.error e := rfl

theorem find?_key_eq_none (ca : Args V) (a : String) (h : memArg ca a = false) :
    ca.find? (fun p => p.1 == a) = none := by
  rw [List.find?_eq_none]
  intro x hx hbeq
  have h2 : memArg ca a = true := by
    simp only [memArg, List.any_eq_true]
    exact ⟨x, hx, hbeq⟩
  rw [h2] at h
  exact Bool.noConfusion h

theorem lookupArg_map_set (a : String) (v : V) :
    ∀ (ca : Args V), memArg ca a = true →
      lookupArg (ca.map (fun p => if p.1 == a then (a, v) else p)) a = some v
  | [], h => by simp [memArg] at h
  | p :: ca, h => by
    by_cases hp : (p.1 == a) = true
    · simp only [List.map_cons, if_pos hp]
      rw [lookupArg, List.find?_cons_of_pos _ (by simp)]
      rfl
    · have h2 : memArg ca a = true := by
        simp only [memArg, List.any_cons] at h
        rcases Bool.or_eq_true_iff.mp h with h1 | h1
        · exact absurd h1 hp
        · exact h1
      simp only [List.map_cons, if_neg hp]
      rw [lookupArg, List.find?_cons_of_neg _ (by simpa using hp)]
      exact lookupArg_map_set a v ca h2

theorem lookupArg_setArg (ca : Args V) (a : String) (v : V) :
    lookupArg (setArg ca a v) a = some v := by
  by_cases h : memArg ca a = true
  · rw [setArg, if_pos h]
    exact lookupArg_map_set a v ca h
  · rw [setArg, if_neg h]
    rw [lookupArg, List.find?_append,
      find?_key_eq_none ca a (Bool.eq_false_iff.mpr h)]
    simp

theorem map_fst_map_set (a : String) (v : V) :
    ∀ (ca : Args V),
      (ca.map (fun p => if p.1 == a then (a, v) else p)).map Prod.fst
        = ca.map Prod.fst
  | [] => rfl
  | p :: ca => by
    by_cases hp : (p.1 == a) = true
    · have he : p.1 = a := by simpa using hp
      simp only [List.map_cons, if_pos hp, map_fst_map_set a v ca]
      rw [he]
    · simp only [List.map_cons, if_neg hp, map_fst_map_set a v ca]

theorem map_fst_setArg (ca : Args V) (a : String) (v : V) :
    (setArg ca a v).map Prod.fst =
      if memArg ca a = true then ca.map Prod.fst else ca.map Prod.fst ++ [a] := by
  by_cases h : memArg ca a = true
  · rw [setArg, if_pos h, if_pos h, map_fst_map_set]
  · rw [setArg, if_neg h, if_neg h]
    simp

theorem length_setArg (ca : Args V) (a : String) (v : V) :
    (setArg ca a v).length =
      if memArg ca a = true then ca.length else ca.length + 1 := by
  have h2 := congrArg List.length (map_fst_setArg ca a v)
  by_cases h : memArg ca a = true
  · rw [if_pos h] at h2
    rw [if_pos h]
    simpa using h2
  · rw [if_neg h] at h2
    rw [if_neg h]
    simpa using h2

/-! ### Helper lemmas: unfolding the call step -/

theorem resolveCall_eq (f : Callable V R) (ao : Bool) (ca : Args V)
    (args : List V) (kwargs : List (String × V)) :
    resolveCall f ao ca args kwargs =
      match bindPositional f ao ca args with
      | .error e => .error e
      | .ok ca2 => bindKeywords f ao ca2 kwargs := by
  rw [resolveCall]
  cases bindPositional f ao ca args <;> rfl

theorem callNode_ne (n : BindingNode V R) (args : List V)
    (kwargs : List (String × V)) (hne : (args.isEmpty && kwargs.isEmpty) = false) :
    callNode n args kwargs =
      match resolveCall n.fun_ n.allow_override n.use_args args kwargs with
      | .error e => .error e
      | .ok ca =>
        if !n.lazy && ca.length == n.fun_.args.length then
          (callFun n.fun_ ca).map CallResult.value
        else .ok (.node { n with use_args := ca }) := by
  rw [callNode]
  simp only [hne, Bool.false_eq_true, if_false]

theorem callNode_lazy_node (n : BindingNode V R) (args : List V)
    (kwargs : List (String × V)) (hl : n.lazy = true)
    (hne : (args.isEmpty && kwargs.isEmpty) = false) (ca : Args V)
    (hres : resolveCall n.fun_ n.allow_override n.use_args args kwargs = .ok ca) :
    callNode n args kwargs = .ok (.node { n with use_args := ca }) := by
  rw [callNode_ne n args kwargs hne, hres]
  simp [hl]

theorem callNode_resolve_error (n : BindingNode V R) (args : List V)
    (kwargs : List (String × V)) (hne : (args.isEmpty && kwargs.isEmpty) = false)
    (e : PyError)
    (hres : resolveCall n.fun_ n.allow_override n.use_args args kwargs = .error e) :
    callNode n args kwargs = .error e := by
  rw [callNode_ne n args kwargs hne, hres]

/-! ### Claims -/

/-- C6: invoking a BindingNode with no positional and no keyword values
invokes the underlying callable with exactly the node's current
BoundArguments as its full argument set and returns that call's result
verbatim, creating no new node; any failure of the underlying call — in
particular its own missing-argument error — propagates unchanged. -/
theorem c6_empty_call (n : BindingNode V R) :
    callNode n [] [] = (callFun n.fun_ n.use_args).map CallResult.value ∧
    ∀ e : PyError, callFun n.fun_ n.use_args = .error e →
      callNode n [] [] = .error e := by
  constructor
  · rfl
  · intro e he
    show (callFun n.fun_ n.use_args).map CallResult.value = _
    rw [he]
    rfl

/-- C6 witness: forcing `curry()(f)` with nothing bound surfaces `f`'s own
missing-argument error for its first parameter, unintercepted. -/
theorem c6_empty_call_witness :
    callNode (BindingNode.mk exF [] true false) [] []
      = Except.error (PyError.missingArgument "f" "a") :=
  (c6_empty_call (BindingNode.mk exF [] true false)).2 _ rfl

/-- C7: supplying a positional value when no free parameter slot remains in
the node's accumulated BoundArguments (bindings from all earlier chained
calls, keywords and seeded defaults included) fails with ArityExceededError
naming the callable and its total declared parameter count. -/
theorem c7_arity_exceeded (n : BindingNode V R) (v : V) (rest : List V)
    (kw : List (String × V))
    (hfull : ∀ a ∈ validArgs n.fun_, memArg n.use_args a = true) :
    callNode n (v :: rest) kw
      = .error (.arityExceeded n.fun_.name n.fun_.args.length) := by
  have hnone : (validArgs n.fun_).find? (fun a => !(memArg n.use_args a))
      = none :=
    List.find?_eq_none.mpr (fun a ha => by simp [hfull a ha])
  have hfree : _first_free_arg n.fun_ n.use_args
      = .error (.arityExceeded n.fun_.name n.fun_.args.length) := by
    rw [_first_free_arg, hnone]
  have hbp : bindPositional n.fun_ n.allow_override n.use_args (v :: rest)
      = .error (.arityExceeded n.fun_.name n.fun_.args.length) := by
    simp only [bindPositional, hfree, except_bind_error]
  apply callNode_resolve_error _ _ _ (by simp) _ ?_
  rw [resolveCall_eq, hbp]

/-- C7 witness: a fourth positional value on a three-parameter function with
all three slots bound overflows, across chained calls. -/
theorem c7_arity_exceeded_witness :
    callNode (BindingNode.mk exF [("a", 1), ("b", 2), ("c", 3)] true false)
        [4] [] = Except.error (PyError.arityExceeded "f" 3) :=
  c7_arity_exceeded (BindingNode.mk exF [("a", 1), ("b", 2), ("c", 3)] true false)
    4 [] [] (by decide)

/-- C8: keyword resolution: a name that is not a declared parameter fails
with UnknownParameterError naming the callable and the name; a name already
present in BoundArguments (bound positionally, by keyword, or seeded) fails
with OverrideNotAllowedError when allowOverride is false; otherwise the
binding is set or replaced, and the value just written is the one read back
afterwards — the later value wins. -/
theorem c8_keyword_resolution (f : Callable V R) (ca : Args V) (ao : Bool)
    (a : String) (v : V) :
    (a ∉ f.args →
      _set_argument f ca ao a v = .error (.unknownParameter f.name a)) ∧
    (a ∈ f.args → memArg ca a = true → ao = false →
      _set_argument f ca ao a v = .error (.overrideNotAllowed f.name a)) ∧
    (a ∈ f.args → (memArg ca a = false ∨ ao = true) →
      _set_argument f ca ao a v = .ok (setArg ca a v)) ∧
    lookupArg (setArg ca a v) a = some v := by
  refine ⟨?_, ?_, ?_, lookupArg_setArg ca a v⟩
  · intro h
    have hc : f.args.contains a = false := by simp [List.contains, h]
    simp [_set_argument, hc, h]
  · intro h1 h2 h3
    have hc : f.args.contains a = true := by simp [List.contains, h1]
    simp [_set_argument, hc, h1, h2, h3]
  · intro h1 h2
    have hc : f.args.contains a = true := by simp [List.contains, h1]
    rcases h2 with h2 | h2 <;> simp [_set_argument, hc, h1, h2]

/-- C8 witness: binding an undeclared name fails with the unknown-parameter
error naming the callable and the name. -/
theorem c8_keyword_resolution_witness :
    _set_argument exF [] false "q" (0 : Nat)
      = Except.error (PyError.unknownParameter "f" "q") :=
  (c8_keyword_resolution exF [] false "q" 0).1 (by decide)

/-- C5: laziness and completion: on a non-empty call whose value resolution
succeeds, with lazy=false and the bound count equal to the total declared
parameter count the underlying callable is invoked immediately and its
result value is returned (not a node); with lazy=false short of the count a
new BindingNode is returned; with lazy=true every successful non-empty call
returns a new BindingNode, so only an explicit empty call forces
evaluation. -/
theorem c5_laziness (n : BindingNode V R) (pos : List V)
    (kw : List (String × V)) (hne : (pos.isEmpty && kw.isEmpty) = false)
    (ca : Args V)
    (hres : resolveCall n.fun_ n.allow_override n.use_args pos kw = .ok ca) :
    (n.lazy = false → ca.length = n.fun_.args.length →
      callNode n pos kw = (callFun n.fun_ ca).map CallResult.value) ∧
    (n.lazy = false → ca.length ≠ n.fun_.args.length →
      callNode n pos kw = .ok (.node { n with use_args := ca })) ∧
    (n.lazy = true →
      callNode n pos kw = .ok (.node { n with use_args := ca })) := by
  refine ⟨?_, ?_, fun hl => callNode_lazy_node n pos kw hl hne ca hres⟩
  · intro hl hlen
    rw [callNode_ne n pos kw hne, hres]
    simp [hl, hlen]
  · intro hl hlen
    rw [callNode_ne n pos kw hne, hres]
    simp [hl, hlen]

/-- C5 witness: with lazy=false, the call completing `g(a, b)` returns the
computed result value directly. -/
theorem c5_laziness_witness :
    callNode (BindingNode.mk exG [] false false) [11, 12] []
      = Except.ok (CallResult.value [11, 12]) := by
  have h := (c5_laziness (BindingNode.mk exG [] false false) [11, 12] []
    (by decide) [("a", 11), ("b", 12)] rfl).1 rfl rfl
  rw [h]
  rfl

/-- C9 (amended): a Specializer argument that is neither a free function nor
a bound method fails with the not-callable TypeError; a variadic callable
fails with the variadic TypeError naming it; otherwise specialization
returns the root BindingNode — except that with useDefaults set and a
callable carrying no default values, the seeding step itself raises the
host TypeError from `reversed(None)` instead of returning a node. -/
theorem c9_specializer (lazy ao ud : Bool) (f : Callable V R) :
    (_specialized_curry lazy ao ud (PyObject.notFunction : PyObject V R)
        = .error .notCallable) ∧
    (f.varargs = true ∨ f.varkw = true →
      _specialized_curry lazy ao ud (.callable f)
        = .error (.variadic f.name)) ∧
    (f.varargs = false → f.varkw = false →
      (ud = true → f.defaults.isSome = true) →
      ∃ nd : BindingNode V R,
        _specialized_curry lazy ao ud (.callable f) = .ok nd) := by
  refine ⟨rfl, ?_, ?_⟩
  · intro h
    rw [_specialized_curry]
    rcases h with h | h <;> simp [h]
  · intro hv hk hd
    cases ud with
    | false =>
      refine ⟨⟨f, [], lazy, ao⟩, ?_⟩
      rw [_specialized_curry, if_neg (by simp [hv, hk])]
      rfl
    | true =>
      obtain ⟨ds, hds⟩ := Option.isSome_iff_exists.mp (hd rfl)
      refine ⟨⟨f, f.args.reverse.zip ds.reverse, lazy, ao⟩, ?_⟩
      rw [_specialized_curry, if_neg (by simp [hv, hk])]
      show (seedDefaults f >>= _) = _
      rw [seedDefaults, hds]
      rfl

/-- C9 witness: a plain two-parameter function specializes to a root node
when useDefaults is off. -/
theorem c9_specializer_witness :
    ∃ nd : BindingNode Nat (List Nat),
      _specialized_curry true false false (.callable exG) = .ok nd :=
  (c9_specializer true false false exG).2.2 rfl rfl (fun h => Bool.noConfusion h)

/-- C9 counterexample: `exG` is a free, non-variadic function, so the claim
as stated promises a root BindingNode; instead specialization with
useDefaults set raises the `reversed(None)` TypeError, because `exG`
declares no default values. -/
theorem c9_specializer_counterexample :
    _specialized_curry true false true (PyObject.callable exG)
      = Except.error PyError.reversedOfNone := rfl

/-- C3 counterexample: for `exF`, a callable with zero default-valued
parameters, the claim says seeding yields an empty BoundArguments and
specialization still returns the root BindingNode; instead it raises the
host TypeError from `reversed(None)` (`inspect.getfullargspec` reports
`defaults=None`, and line 101 calls `reversed` on it). -/
theorem c3_default_seeding_counterexample :
    _specialized_curry true false true (PyObject.callable exF)
      = Except.error PyError.reversedOfNone := rfl

/-- C4: in one invocation mixing positional and keyword values, all
positional values are resolved before any keyword values regardless of
call-site interleaving — the mixed call equals a positional-only call
followed by a keyword-only call on the resulting node — and each positional
value binds the left-most declared parameter (receiver skipped for bound
methods) that is free in BoundArguments at the moment of binding:
`_first_free_arg` yields exactly the first entry of the valid parameter list
absent from the current BoundArguments, every earlier entry being bound. -/
theorem c4_positional_before_keyword (n : BindingNode V R) (pos : List V)
    (kw : List (String × V)) (hl : n.lazy = true) (hp : pos ≠ [])
    (hk : kw ≠ []) :
    (callNode n pos kw =
      match callNode n pos [] with
      | .ok (.node n2) => callNode n2 [] kw
      | r => r) ∧
    (∀ (ca : Args V) (a : String),
      _first_free_arg n.fun_ ca = .ok a ↔
        ∃ i : Nat, (validArgs n.fun_)[i]? = some a ∧ memArg ca a = false ∧
          ∀ j : Nat, j < i →
            ∃ b, (validArgs n.fun_)[j]? = some b ∧ memArg ca b = true) := by
  constructor
  · have hne : (pos.isEmpty && kw.isEmpty) = false := by
      cases pos with
      | nil => exact absurd rfl hp
      | cons v vs => rfl
    have hne1 : (pos.isEmpty && ([] : List (String × V)).isEmpty) = false := by
      cases pos with
      | nil => exact absurd rfl hp
      | cons v vs => rfl
    have hne2 : (([] : List V).isEmpty && kw.isEmpty) = false := by
      cases kw with
      | nil => exact absurd rfl hk
      | cons p ps => rfl
    rw [callNode_ne n pos kw hne, callNode_ne n pos [] hne1,
      resolveCall_eq, resolveCall_eq]
    cases hbp : bindPositional n.fun_ n.allow_override n.use_args pos with
    | error e => rfl
    | ok ca1 =>
      show (match bindKeywords n.fun_ n.allow_override ca1 kw with
        | Except.error e => Except.error e
        | Except.ok ca =>
          if !n.lazy && ca.length == n.fun_.args.length then
            (callFun n.fun_ ca).map CallResult.value
          else Except.ok (CallResult.node { n with use_args := ca })) = _
      simp only [hl, Bool.not_true, Bool.false_and, Bool.false_eq_true,
        if_false]
      simp only [bindKeywords]
      rw [callNode_ne _ [] kw hne2, resolveCall_eq]
      show _ = (match bindKeywords n.fun_ n.allow_override ca1 kw with
        | Except.error e => Except.error e
        | Except.ok ca =>
          if !true && ca.length == n.fun_.args.length then
            (callFun n.fun_ ca).map CallResult.value
          else Except.ok (CallResult.node
            { fun_ := n.fun_, use_args := ca, lazy := true,
              allow_override := n.allow_override }))
      cases bindKeywords n.fun_ n.allow_override ca1 kw with
      | error e => rfl
      | ok ca2 => rfl
  · intro ca a
    rw [_first_free_arg]
    cases hf : (validArgs n.fun_).find? (fun x => !(memArg ca x)) with
    | none =>
      rw [List.find?_eq_none] at hf
      constructor
      · intro h
        exact Except.noConfusion h
      · rintro ⟨i, hget, hmem, hmin⟩
        have h2 := hf a (List.getElem?_mem hget)
        simp [hmem] at h2
    | some b =>
      rw [find?_index_spec] at hf
      obtain ⟨i2, hget2, hpb2, hmin2⟩ := hf
      constructor
      · intro h
        injection h with h
        subst h
        refine ⟨i2, hget2, by simpa using hpb2, ?_⟩
        intro j hj
        obtain ⟨c, hc, hpc⟩ := hmin2 j hj
        exact ⟨c, hc, by simpa using hpc⟩
      · rintro ⟨i, hget, hmem, hmin⟩
        rcases Nat.lt_trichotomy i i2 with hlt | heq | hgt
        · obtain ⟨c, hc, hpc⟩ := hmin2 i hlt
          rw [hget] at hc
          injection hc with hc
          rw [← hc] at hpc
          simp [hmem] at hpc
        · subst heq
          rw [hget] at hget2
          injection hget2 with h2
          rw [h2]
        · obtain ⟨c, hc, hpc⟩ := hmin i2 hgt
          rw [hget2] at hc
          injection hc with hc
          rw [← hc] at hpc
          simp [hpc] at hpb2

/-- C4 witness: a call supplying one positional and one keyword value equals
the positional-only call followed by the keyword-only call. -/
theorem c4_positional_before_keyword_witness :
    callNode (BindingNode.mk exF [] true false) [1] [("c", 3)] =
      match callNode (BindingNode.mk exF [] true false) [1] [] with
      | .ok (.node n2) => callNode n2 [] [("c", 3)]
      | r => r :=
  (c4_positional_before_keyword (BindingNode.mk exF [] true false) [1]
    [("c", 3)] rfl (by simp) (by simp)).1

/-! ### Store lemmas for the frame property -/

theorem callNodeS_store (store : List (Args V)) (n : SBindingNode V R)
    (args : List V) (kwargs : List (String × V)) :
    (callNodeS store n args kwargs).1 = store ∨
      ∃ ca, (callNodeS store n args kwargs).1 = store ++ [ca] := by
  rw [callNodeS]
  by_cases h : (args.isEmpty && kwargs.isEmpty) = true
  · rw [if_pos h]
    left
    rfl
  · rw [if_neg h]
    cases resolveCall n.fun_ n.allow_override (store.getD n.idx []) args kwargs with
    | error e =>
      left
      rfl
    | ok ca =>
      dsimp only
      by_cases h2 : (!n.lazy && ca.length == n.fun_.args.length) = true
      · rw [if_pos h2]
        left
        rfl
      · rw [if_neg h2]
        right
        exact ⟨ca, rfl⟩

theorem callNodeS_frame (store : List (Args V)) (n : SBindingNode V R)
    (args : List V) (kwargs : List (String × V)) (i : Nat)
    (hi : i < store.length) :
    ((callNodeS store n args kwargs).1)[i]? = store[i]? := by
  rcases callNodeS_store store n args kwargs with h | ⟨ca, h⟩
  · rw [h]
  · rw [h, List.getElem?_append_left hi]

theorem callNodeS_congr (s1 s2 : List (Args V)) (n : SBindingNode V R)
    (hd : s1.getD n.idx [] = s2.getD n.idx [])
    (args : List V) (kwargs : List (String × V)) :
    SResultEquiv (callNodeS s1 n args kwargs).1 (callNodeS s2 n args kwargs).1
      ((callNodeS s1 n args kwargs).2) ((callNodeS s2 n args kwargs).2) := by
  rw [callNodeS, callNodeS, hd]
  by_cases h : (args.isEmpty && kwargs.isEmpty) = true
  · rw [if_pos h, if_pos h]
    cases callFun n.fun_ (s2.getD n.idx []) with
    | error e => exact rfl
    | ok r => exact rfl
  · rw [if_neg h, if_neg h]
    cases resolveCall n.fun_ n.allow_override (s2.getD n.idx []) args kwargs with
    | error e => exact rfl
    | ok ca =>
      dsimp only
      by_cases h2 : (!n.lazy && ca.length == n.fun_.args.length) = true
      · rw [if_pos h2, if_pos h2]
        cases callFun n.fun_ ca with
        | error e => exact rfl
        | ok r => exact rfl
      · rw [if_neg h2, if_neg h2]
        refine ⟨rfl, rfl, rfl, ?_⟩
        rw [List.getD_eq_getElem?_getD, List.getD_eq_getElem?_getD,
          List.getElem?_concat_length, List.getElem?_concat_length]

/-- The store-passing call agrees with the pure call on the node's dict:
the two embeddings of `_curried_fun` compute the same outcome, the derived
node's dict being the appended store cell. -/
theorem callNodeS_callNode (store : List (Args V)) (n : SBindingNode V R)
    (args : List V) (kwargs : List (String × V)) :
    (callNodeS store n args kwargs).2 =
      match callNode ⟨n.fun_, store.getD n.idx [], n.lazy, n.allow_override⟩
          args kwargs with
      | .error e => .error e
      | .ok (.value r) => .ok (.value r)
      | .ok (.node m) =>
        .ok (.node ⟨m.fun_, store.length, m.lazy, m.allow_override⟩) := by
  rw [callNodeS, callNode]
  by_cases h : (args.isEmpty && kwargs.isEmpty) = true
  · rw [if_pos h, if_pos h]
    cases callFun n.fun_ (store.getD n.idx []) with
    | error e => rfl
    | ok r => rfl
  · rw [if_neg h, if_neg h]
    cases resolveCall n.fun_ n.allow_override (store.getD n.idx []) args kwargs with
    | error e => rfl
    | ok ca =>
      dsimp only
      by_cases h2 : (!n.lazy && ca.length == n.fun_.args.length) = true
      · rw [if_pos h2, if_pos h2]
        cases callFun n.fun_ ca with
        | error e => rfl
        | ok r => rfl
      · rw [if_neg h2, if_neg h2]

/-- C2: invoking a BindingNode never mutates the node's own dict — the call
works on `dict.copy(use_args)` and only ever allocates a new dict — so (i)
every dict existing before the call is untouched afterwards, and (ii) a
second, independent call on the same node (after the first call succeeded
*or* raised) is observationally unaffected by the first: it yields the same
error, the same result value, or a derived node with the same bindings. -/
theorem c2_branch_independent (store : List (Args V)) (n : SBindingNode V R)
    (hidx : n.idx < store.length) (a1 : List V) (k1 : List (String × V))
    (a2 : List V) (k2 : List (String × V)) :
    (∀ i : Nat, i < store.length →
      ((callNodeS store n a1 k1).1)[i]? = store[i]?) ∧
    SResultEquiv (callNodeS (callNodeS store n a1 k1).1 n a2 k2).1
      (callNodeS store n a2 k2).1
      ((callNodeS (callNodeS store n a1 k1).1 n a2 k2).2)
      ((callNodeS store n a2 k2).2) := by
  refine ⟨fun i hi => callNodeS_frame store n a1 k1 i hi, ?_⟩
  apply callNodeS_congr
  rw [List.getD_eq_getElem?_getD, List.getD_eq_getElem?_getD,
    callNodeS_frame store n a1 k1 n.idx hidx]

/-- C2 witness: branching `curry(f)` by binding 1 and, independently, 2:
the second branch is unaffected by the first. -/
theorem c2_branch_independent_witness :
    SResultEquiv
      (callNodeS (callNodeS [[]] (SBindingNode.mk exF 0 true false) [1] []).1
        (SBindingNode.mk exF 0 true false) [2] []).1
      (callNodeS [[]] (SBindingNode.mk exF 0 true false) [2] []).1
      ((callNodeS (callNodeS [[]] (SBindingNode.mk exF 0 true false) [1] []).1
        (SBindingNode.mk exF 0 true false) [2] []).2)
      ((callNodeS [[]] (SBindingNode.mk exF 0 true false) [2] []).2) :=
  (c2_branch_independent [[]] (SBindingNode.mk exF 0 true false)
    (Nat.zero_lt_succ 0) [1] [] [2] []).2

theorem mem_reverse_zip {l : List String} {ds : List V}
    (hlen : ds.length ≤ l.length) (a : String) (v : V) :
    (a, v) ∈ l.reverse.zip ds.reverse ↔
      ∃ i : Nat, i < ds.length ∧
        l[l.length - ds.length + i]? = some a ∧ ds[i]? = some v := by
  rw [List.mem_iff_getElem?]
  constructor
  · rintro ⟨k, hk⟩
    rw [List.getElem?_zip_eq_some] at hk
    obtain ⟨h1, h2⟩ := hk
    obtain ⟨hk2, hv2⟩ := List.getElem?_eq_some_iff.mp h2
    have hkd : k < ds.length := by simpa using hk2
    refine ⟨ds.length - 1 - k, by omega, ?_, ?_⟩
    · rw [List.getElem?_reverse (by omega)] at h1
      have he : l.length - ds.length + (ds.length - 1 - k) = l.length - 1 - k := by
        omega
      rw [he]
      exact h1
    · rw [List.getElem?_reverse hkd] at h2
      exact h2
  · rintro ⟨i, hi, h1, h2⟩
    refine ⟨ds.length - 1 - i, ?_⟩
    rw [List.getElem?_zip_eq_some]
    constructor
    · rw [List.getElem?_reverse (by omega)]
      have he : l.length - 1 - (ds.length - 1 - i) = l.length - ds.length + i := by
        omega
      rw [he]
      exact h1
    · rw [List.getElem?_reverse (by omega)]
      have he : ds.length - 1 - (ds.length - 1 - i) = i := by omega
      rw [he]
      exact h2

/-- C3 (amended): with useDefaults set, specialization seeds the initial
BoundArguments once, at specialization time, with exactly the trailing
parameters of the callable that carry defaults (those nearest the end of the
parameter list), each mapped to its own declared default value; for a
callable with zero default-valued parameters the seeding step raises the
host `reversed(None)` TypeError instead of returning a root node (see the
counterexample). -/
theorem c3_default_seeding (lazy ao : Bool) (f : Callable V R) (ds : List V)
    (hds : f.defaults = some ds) (hlen : ds.length ≤ f.args.length)
    (hv : f.varargs = false) (hk : f.varkw = false) :
    ∃ nd : BindingNode V R,
      _specialized_curry lazy ao true (.callable f) = .ok nd ∧
      nd.fun_ = f ∧ nd.lazy = lazy ∧ nd.allow_override = ao ∧
      ∀ (a : String) (v : V),
        (a, v) ∈ nd.use_args ↔
          ∃ i : Nat, i < ds.length ∧
            f.args[f.args.length - ds.length + i]? = some a ∧
            ds[i]? = some v := by
  refine ⟨⟨f, f.args.reverse.zip ds.reverse, lazy, ao⟩, ?_, rfl, rfl, rfl, ?_⟩
  · rw [_specialized_curry, if_neg (by simp [hv, hk])]
    show (seedDefaults f >>= _) = _
    rw [seedDefaults, hds]
    rfl
  · intro a v
    exact mem_reverse_zip hlen a v

/-- C3 witness: for `fd(a, b, y=6, z=7)`, the root node is seeded with
exactly the trailing parameters `y` and `z` mapped to their own declared
defaults. -/
theorem c3_default_seeding_witness :
    ∃ nd : BindingNode Nat (List Nat),
      _specialized_curry true false true (.callable exFd) = .ok nd ∧
      nd.fun_ = exFd ∧ nd.lazy = true ∧ nd.allow_override = false ∧
      ∀ (a : String) (v : Nat),
        (a, v) ∈ nd.use_args ↔
          ∃ i : Nat, i < ([6, 7] : List Nat).length ∧
            exFd.args[exFd.args.length - ([6, 7] : List Nat).length + i]?
              = some a ∧
            ([6, 7] : List Nat)[i]? = some v :=
  c3_default_seeding true false exFd [6, 7] rfl (by decide) rfl rfl

/-! ### Invariant lemmas for the receiver-skipping argument (C10) -/

theorem set_argument_ok (f : Callable V R) (ca : Args V) (ao : Bool)
    (a : String) (v : V) (ca2 : Args V)
    (hset : _set_argument f ca ao a v = .ok ca2) :
    f.args.contains a = true ∧ ca2 = setArg ca a v := by
  by_cases hc : f.args.contains a = true
  · refine ⟨hc, ?_⟩
    rw [_set_argument] at hset
    rw [if_neg (by rw [hc]; simp)] at hset
    by_cases ho : (memArg ca a && !ao) = true
    · rw [if_pos ho] at hset
      exact Except.noConfusion hset
    · rw [if_neg ho] at hset
      injection hset with h
      exact h.symm
  · exfalso
    have hc2 : f.args.contains a = false := by simpa using hc
    rw [_set_argument] at hset
    rw [if_pos (by rw [hc2]; rfl)] at hset
    exact Except.noConfusion hset

theorem validKeys_set (f : Callable V R) (ca : Args V) (ao : Bool)
    (a : String) (v : V) (ca2 : Args V)
    (hset : _set_argument f ca ao a v = .ok ca2) (hvk : validKeys f ca) :
    validKeys f ca2 ∧
      ∀ b, memArg ca2 b = true → memArg ca b = true ∨ b = a := by
  obtain ⟨hc, hca2⟩ := set_argument_ok f ca ao a v ca2 hset
  have hamem : a ∈ f.args := by simpa [List.contains] using hc
  obtain ⟨hnd, hsub⟩ := hvk
  subst hca2
  have hkeys := map_fst_setArg ca a v
  by_cases hm : memArg ca a = true
  · rw [if_pos hm] at hkeys
    refine ⟨⟨by rw [hkeys]; exact hnd, fun b hb => hsub b (by rwa [hkeys] at hb)⟩, ?_⟩
    intro b hb
    left
    rw [memArg_eq] at hb ⊢
    rwa [hkeys] at hb
  · rw [if_neg hm] at hkeys
    refine ⟨⟨?_, ?_⟩, ?_⟩
    · rw [hkeys, List.nodup_append]
      refine ⟨hnd, List.nodup_singleton a, ?_⟩
      intro x hx hx2
      have hxa : x = a := by simpa using hx2
      subst hxa
      have h3 : memArg ca x = true := (memArg_iff ca x).mpr hx
      rw [h3] at hm
      exact hm rfl
    · intro b hb
      rw [hkeys] at hb
      rcases List.mem_append.mp hb with h | h
      · exact hsub b h
      · have h3 : b = a := by simpa using h
        exact h3 ▸ hamem
    · intro b hb
      rw [memArg_eq, hkeys] at hb
      have h3 : b ∈ ca.map Prod.fst ++ [a] := by
        simpa [List.contains] using hb
      rcases List.mem_append.mp h3 with h | h
      · left
        exact (memArg_iff ca b).mpr h
      · right
        simpa using h

theorem first_free_arg_ok_mem (f : Callable V R) (ca : Args V) (a : String)
    (h : _first_free_arg f ca = .ok a) : a ∈ validArgs f := by
  rw [_first_free_arg] at h
  cases hf : (validArgs f).find? (fun x => !(memArg ca x)) with
  | none =>
    rw [hf] at h
    exact Except.noConfusion h
  | some b =>
    rw [hf] at h
    injection h with hb
    exact hb ▸ List.mem_of_find?_eq_some hf

theorem validKeys_bindPositional (f : Callable V R) (ao : Bool) (recv : String)
    (rest : List String) (hargs : f.args = recv :: rest)
    (hm : f.isMethod = true) (hnd : f.args.Nodup) :
    ∀ (vals : List V) (ca ca2 : Args V),
      bindPositional f ao ca vals = .ok ca2 →
      validKeys f ca → memArg ca recv = false →
      validKeys f ca2 ∧ memArg ca2 recv = false
  | [], ca, ca2, hbp, hvk, hrecv => by
    injection hbp with h
    exact h ▸ ⟨hvk, hrecv⟩
  | v :: vals, ca, ca2, hbp, hvk, hrecv => by
    simp only [bindPositional] at hbp
    cases hff : _first_free_arg f ca with
    | error e =>
      rw [hff, except_bind_error] at hbp
      exact Except.noConfusion hbp
    | ok arg =>
      rw [hff, except_bind_ok] at hbp
      cases hset : _set_argument f ca ao arg v with
      | error e =>
        rw [hset, except_bind_error] at hbp
        exact Except.noConfusion hbp
      | ok ca1 =>
        rw [hset, except_bind_ok] at hbp
        have hargmem : arg ∈ validArgs f := first_free_arg_ok_mem f ca arg hff
        have hargrecv : arg ≠ recv := by
          rw [validArgs, if_pos hm, hargs] at hargmem
          intro he
          rw [hargs, List.nodup_cons] at hnd
          exact hnd.1 (he ▸ hargmem)
        obtain ⟨hvk1, hsub⟩ := validKeys_set f ca ao arg v ca1 hset hvk
        have hrecv1 : memArg ca1 recv = false := by
          by_contra hc
          have hc2 : memArg ca1 recv = true := by simpa using hc
          rcases hsub recv hc2 with h | h
          · rw [h] at hrecv
            exact Bool.noConfusion hrecv
          · exact hargrecv h.symm
        exact validKeys_bindPositional f ao recv rest hargs hm hnd vals ca1
          ca2 hbp hvk1 hrecv1

theorem validKeys_bindKeywords (f : Callable V R) (ao : Bool) (recv : String) :
    ∀ (kws : List (String × V)) (ca ca2 : Args V),
      bindKeywords f ao ca kws = .ok ca2 →
      validKeys f ca → memArg ca recv = false →
      (∀ p ∈ kws, p.1 ≠ recv) →
      validKeys f ca2 ∧ memArg ca2 recv = false
  | [], ca, ca2, hbk, hvk, hrecv, _ => by
    injection hbk with h
    exact h ▸ ⟨hvk, hrecv⟩
  | p :: kws, ca, ca2, hbk, hvk, hrecv, hkw => by
    simp only [bindKeywords] at hbk
    cases hset : _set_argument f ca ao p.1 p.2 with
    | error e =>
      rw [hset, except_bind_error] at hbk
      exact Except.noConfusion hbk
    | ok ca1 =>
      rw [hset, except_bind_ok] at hbk
      obtain ⟨hvk1, hsub⟩ := validKeys_set f ca ao p.1 p.2 ca1 hset hvk
      have hrecv1 : memArg ca1 recv = false := by
        by_contra hc
        have hc2 : memArg ca1 recv = true := by simpa using hc
        rcases hsub recv hc2 with h | h
        · rw [h] at hrecv
          exact Bool.noConfusion hrecv
        · exact hkw p (List.mem_cons_self p kws) h.symm
      exact validKeys_bindKeywords f ao recv kws ca1 ca2 hbk hvk1 hrecv1
        (fun q hq => hkw q (List.mem_cons_of_mem p hq))

theorem length_lt_of_validKeys (f : Callable V R) (recv : String)
    (rest : List String) (hargs : f.args = recv :: rest) (_hnd : f.args.Nodup)
    (ca : Args V) (hvk : validKeys f ca) (hrecv : memArg ca recv = false) :
    ca.length < f.args.length := by
  obtain ⟨hnd2, hsub⟩ := hvk
  have hsub2 : ∀ a ∈ ca.map Prod.fst, a ∈ rest := by
    intro a ha
    have h2 := hsub a ha
    rw [hargs] at h2
    rcases List.mem_cons.mp h2 with h3 | h3
    · exfalso
      have h4 : memArg ca recv = true := (memArg_iff ca recv).mpr (h3 ▸ ha)
      rw [h4] at hrecv
      exact Bool.noConfusion hrecv
    · exact h3
  have hlen : (ca.map Prod.fst).length ≤ rest.length := by
    calc (ca.map Prod.fst).length = (ca.map Prod.fst).toFinset.card :=
          (List.toFinset_card_of_nodup hnd2).symm
      _ ≤ rest.toFinset.card := Finset.card_le_card (fun x hx => by
          rw [List.mem_toFinset] at hx ⊢
          exact hsub2 x hx)
      _ ≤ rest.length := List.toFinset_card_le rest
  rw [hargs]
  simp only [List.length_map] at hlen
  simp only [List.length_cons]
  omega

/-- C10: for a bound method wrapped with lazy=false, positional resolution
skips the receiver parameter while the completion test compares the bound
count against the full declared parameter count including the receiver; so
as long as the receiver's name is not among the node's bindings and no
keyword of the call names it, a successful non-empty call can never trigger
the automatic invocation: it always returns a new BindingNode (with the same
invariant, so this holds along any chain), and a result value can only be
obtained by an explicit empty forcing call. -/
theorem c10_nonlazy_method (n : BindingNode V R) (recv : String)
    (rest : List String) (hargs : n.fun_.args = recv :: rest)
    (hnd : n.fun_.args.Nodup) (hm : n.fun_.isMethod = true)
    (hl : n.lazy = false) (hvk : validKeys n.fun_ n.use_args)
    (hrecv : memArg n.use_args recv = false) (pos : List V)
    (kw : List (String × V)) (hne : (pos.isEmpty && kw.isEmpty) = false)
    (hkw : ∀ p ∈ kw, p.1 ≠ recv) (res : CallResult V R)
    (hres : callNode n pos kw = .ok res) :
    ∃ n2 : BindingNode V R, res = .node n2 ∧ n2.fun_ = n.fun_ ∧
      n2.lazy = false ∧ validKeys n2.fun_ n2.use_args ∧
      memArg n2.use_args recv = false := by
  rw [callNode_ne n pos kw hne, resolveCall_eq] at hres
  cases hbp : bindPositional n.fun_ n.allow_override n.use_args pos with
  | error e =>
    rw [hbp] at hres
    exact Except.noConfusion hres
  | ok ca1 =>
    rw [hbp] at hres
    dsimp only at hres
    cases hbk : bindKeywords n.fun_ n.allow_override ca1 kw with
    | error e =>
      rw [hbk] at hres
      exact Except.noConfusion hres
    | ok ca2 =>
      rw [hbk] at hres
      dsimp only at hres
      obtain ⟨hvk1, hrecv1⟩ := validKeys_bindPositional n.fun_
        n.allow_override recv rest hargs hm hnd pos n.use_args ca1 hbp hvk
        hrecv
      obtain ⟨hvk2, hrecv2⟩ := validKeys_bindKeywords n.fun_
        n.allow_override recv kw ca1 ca2 hbk hvk1 hrecv1 hkw
      have hlen : ca2.length < n.fun_.args.length :=
        length_lt_of_validKeys n.fun_ recv rest hargs hnd ca2 hvk2 hrecv2
      have hbeq : (ca2.length == n.fun_.args.length) = false :=
        beq_eq_false_iff_ne.mpr (Nat.ne_of_lt hlen)
      have hcond : (!n.lazy && ca2.length == n.fun_.args.length) = false := by
        rw [hbeq, Bool.and_false]
      rw [hcond] at hres
      simp only [Bool.false_eq_true, if_false] at hres
      injection hres with h2
      exact ⟨{ n with use_args := ca2 }, h2.symm, rfl, hl, hvk2, hrecv2⟩

/-- C10 witness: filling the two non-receiver parameters of a lazy=false
bound method still returns a node, not the result. -/
theorem c10_nonlazy_method_witness :
    ∃ n2 : BindingNode Nat (List Nat),
      CallResult.node (BindingNode.mk exM [("x", 1), ("y", 2)] false false)
          = .node n2 ∧
      n2.fun_ = exM ∧ n2.lazy = false ∧ validKeys n2.fun_ n2.use_args ∧
      memArg n2.use_args "self" = false :=
  c10_nonlazy_method (BindingNode.mk exM [] false false) "self" ["x", "y"]
    rfl (by decide) rfl rfl ⟨by decide, by decide⟩ (by decide) [1, 2] []
    (by decide) (fun p hp => absurd hp (List.not_mem_nil p)) _ rfl

/-! ### Chunked application (C1) -/

theorem map_fst_zip_take (l : List String) (vals : List V)
    (hlen : l.length ≤ vals.length) (k : Nat) :
    ((l.zip vals).take k).map Prod.fst = l.take k := by
  rw [List.map_take, List.map_fst_zip l vals hlen]

theorem memArg_zip_take (l : List String) (vals : List V)
    (hlen : l.length ≤ vals.length) (k : Nat) (a : String) :
    memArg ((l.zip vals).take k) a = (l.take k).contains a := by
  rw [memArg_eq, map_fst_zip_take l vals hlen k]

theorem first_free_zip_take (f : Callable V R) (vals : List V)
    (hm : f.isMethod = false) (hnd : f.args.Nodup)
    (hlen : f.args.length ≤ vals.length) (k : Nat) (hk : k < f.args.length) :
    _first_free_arg f ((f.args.zip vals).take k)
      = .ok (f.args.get ⟨k, hk⟩) := by
  rw [_first_free_arg]
  have hva : validArgs f = f.args := by
    rw [validArgs, if_neg (by simp [hm])]
  have hpred : (fun arg => !(memArg ((f.args.zip vals).take k) arg))
      = (fun arg => !((f.args.take k).contains arg)) := by
    funext arg
    rw [memArg_zip_take f.args vals hlen k arg]
  rw [hva, hpred, find?_take_eq_get f.args k hk hnd]

theorem set_zip_take (f : Callable V R) (ao : Bool) (vals : List V)
    (hnd : f.args.Nodup) (hlen : f.args.length ≤ vals.length) (k : Nat)
    (hk : k < f.args.length) (v : V) :
    _set_argument f ((f.args.zip vals).take k) ao (f.args.get ⟨k, hk⟩) v
      = .ok ((f.args.zip vals).take k ++ [(f.args.get ⟨k, hk⟩, v)]) := by
  have hmem : memArg ((f.args.zip vals).take k) (f.args.get ⟨k, hk⟩)
      = false := by
    rw [memArg_zip_take f.args vals hlen k]
    by_contra hc
    have hc2 : (f.args.take k).contains (f.args.get ⟨k, hk⟩) = true := by
      simpa using hc
    have hmem2 : f.args.get ⟨k, hk⟩ ∈ f.args.take k := by
      simpa [List.contains] using hc2
    exact get_not_mem_take hnd hk hmem2
  have hcont : f.args.contains (f.args.get ⟨k, hk⟩) = true := by
    simp only [List.contains, List.elem_eq_mem, decide_eq_true_iff]
    exact List.get_mem f.args k hk
  rw [_set_argument, if_neg (by rw [hcont]; simp),
    if_neg (by rw [hmem]; simp), setArg, if_neg (by rw [hmem]; simp)]

theorem zip_take_succ (l : List String) (vals : List V) (k : Nat)
    (hk : k < l.length) (hlen : l.length ≤ vals.length) :
    (l.zip vals).take (k + 1)
      = (l.zip vals).take k
        ++ [(l.get ⟨k, hk⟩, vals.get ⟨k, by omega⟩)] := by
  have hzl : k < (l.zip vals).length := by
    rw [List.length_zip]
    omega
  rw [List.take_succ, List.getElem?_eq_getElem hzl, List.getElem_zip]
  simp

theorem bindPositional_seg (f : Callable V R) (ao : Bool) (vals : List V)
    (hm : f.isMethod = false) (hnd : f.args.Nodup)
    (hlen : vals.length = f.args.length) :
    ∀ (g : List V) (k : Nat), k + g.length ≤ f.args.length →
      g = (vals.drop k).take g.length →
      bindPositional f ao ((f.args.zip vals).take k) g
        = .ok ((f.args.zip vals).take (k + g.length))
  | [], k, hkg, hseg => by
    simp [bindPositional]
  | w :: g, k, hkg, hseg => by
    have hk : k < f.args.length := by
      simp only [List.length_cons] at hkg
      omega
    have hkv : k < vals.length := by omega
    have hle : f.args.length ≤ vals.length := by omega
    have hdrop : vals.drop k = vals.get ⟨k, hkv⟩ :: vals.drop (k + 1) := by
      rw [List.drop_eq_getElem_cons hkv]
      simp
    rw [hdrop] at hseg
    simp only [List.length_cons, List.take_succ_cons] at hseg
    injection hseg with hw hg
    subst hw
    simp only [bindPositional]
    rw [first_free_zip_take f vals hm hnd hle k hk, except_bind_ok,
      set_zip_take f ao vals hnd hle k hk _, except_bind_ok,
      ← zip_take_succ f.args vals k hk hle]
    have hkg2 : (k + 1) + g.length ≤ f.args.length := by
      simp only [List.length_cons] at hkg
      omega
    rw [bindPositional_seg f ao vals hm hnd hlen g (k + 1) hkg2 hg]
    simp only [List.length_cons]
    have he : k + 1 + g.length = k + (g.length + 1) := by omega
    rw [he]

theorem callChain_groups (f : Callable V R) (vals : List V)
    (hm : f.isMethod = false) (hnd : f.args.Nodup)
    (hlen : vals.length = f.args.length) :
    ∀ (groups : List (List V)) (k : Nat),
      k + (groups.flatten).length = f.args.length →
      groups.flatten = (vals.drop k).take (groups.flatten).length →
      (∀ g ∈ groups, g ≠ []) →
      callChain
          (.node (⟨f, (f.args.zip vals).take k, true, false⟩ :
            BindingNode V R))
          (groups.map (fun g => (g, [])) ++ [([], [])])
        = (directCall f vals).map CallResult.value
  | [], k, hk, hseg, hne => by
    have hkn : k = f.args.length := by simpa using hk
    subst hkn
    have hpref : (f.args.zip vals).take f.args.length = f.args.zip vals :=
      List.take_of_length_le (by rw [List.length_zip]; omega)
    simp only [List.map_nil, List.nil_append]
    rw [directCall]
    simp only [callChain]
    rw [hpref]
    have hcn : callNode
        (⟨f, f.args.zip vals, true, false⟩ : BindingNode V R) [] []
        = (callFun f (f.args.zip vals)).map CallResult.value := rfl
    rw [hcn]
    cases callFun f (f.args.zip vals) with
    | error e => rfl
    | ok r => rfl
  | g :: groups, k, hk, hseg, hne => by
    have hgne : g ≠ [] := hne g (List.mem_cons_self g groups)
    rw [List.flatten_cons] at hk hseg
    have hkg : k + g.length ≤ f.args.length := by
      rw [List.length_append] at hk
      omega
    have hlen_take : ((vals.drop k).take g.length).length = g.length := by
      rw [List.length_take, List.length_drop]
      rw [List.length_append] at hk
      omega
    have hsplit := hseg
    rw [List.length_append, List.take_add, List.drop_drop] at hsplit
    obtain ⟨hseg1, hseg2⟩ := List.append_inj hsplit hlen_take.symm
    have hbp := bindPositional_seg f false vals hm hnd hlen g k hkg hseg1
    have hres : resolveCall f false ((f.args.zip vals).take k) g []
        = .ok ((f.args.zip vals).take (k + g.length)) := by
      rw [resolveCall_eq, hbp]
      rfl
    have hgempty : (g.isEmpty && ([] : List (String × V)).isEmpty) = false := by
      cases g with
      | nil => exact absurd rfl hgne
      | cons a as => rfl
    have hcall := callNode_lazy_node
      (⟨f, (f.args.zip vals).take k, true, false⟩ : BindingNode V R) g [] rfl
      hgempty ((f.args.zip vals).take (k + g.length)) hres
    simp only [List.map_cons, List.cons_append, callChain]
    rw [hcall]
    exact callChain_groups f vals hm hnd hlen groups (k + g.length)
      (by rw [List.length_append] at hk; omega) hseg2
      (fun g2 hg2 => hne g2 (List.mem_cons_of_mem g hg2))

/-- C1: for a free fixed-arity callable wrapped with lazy=true,
allowOverride=false, useDefaults=false, supplying its n values positionally
in any splitting into consecutive non-empty groups across chained calls and
then forcing with an empty call returns exactly the direct call
`f(v₁, ..., vₙ)`; supplying all n values in one call and forcing is the
single-group special case. -/
theorem c1_chunked_application (f : Callable V R) (vals : List V)
    (groups : List (List V)) (hm : f.isMethod = false)
    (hva : f.varargs = false) (hvk2 : f.varkw = false) (hnd : f.args.Nodup)
    (hjoin : groups.flatten = vals) (hlen : vals.length = f.args.length)
    (hgne : ∀ g ∈ groups, g ≠ []) (nd0 : BindingNode V R)
    (hroot : _specialized_curry true false false (.callable f) = .ok nd0) :
    callChain (.node nd0) (groups.map (fun g => (g, [])) ++ [([], [])])
      = (directCall f vals).map CallResult.value := by
  have hroot2 : (Except.ok (⟨f, [], true, false⟩ : BindingNode V R) :
      Except PyError (BindingNode V R)) = Except.ok nd0 := by
    rw [_specialized_curry, if_neg (by simp [hva, hvk2])] at hroot
    exact hroot
  have hnd0 : nd0 = ⟨f, [], true, false⟩ := by
    injection hroot2 with h
    exact h.symm
  subst hnd0
  show callChain
    (.node (⟨f, (f.args.zip vals).take 0, true, false⟩ : BindingNode V R))
    _ = _
  refine callChain_groups f vals hm hnd hlen groups 0
    (by rw [hjoin]; omega) ?_ hgne
  rw [hjoin, List.drop_zero, List.take_length]

/-- C1 witness: `curry(f)(1)(2, 3)()` equals `f(1, 2, 3)` for the
three-parameter function `f`. -/
theorem c1_chunked_application_witness :
    callChain (.node (BindingNode.mk exF [] true false))
        ([[1], [2, 3]].map (fun g => (g, [])) ++ [([], [])])
      = (directCall exF [1, 2, 3]).map CallResult.value :=
  c1_chunked_application exF [1, 2, 3] [[1], [2, 3]] rfl rfl rfl (by decide)
    rfl rfl (by decide) (BindingNode.mk exF [] true false) rfl

end Curry
